import Mathlib

/-!
Verification of the exam-bank builder (scripts/build_banks.py): a single-pass
pipeline that segments a raw text dump into (year, subject) sections, extracts
numbered questions with lettered options from each section, collects them per
canonical subject key, deduplicates by exact question text and serializes each
subject bank to JSON.

The development below is a shallow embedding of that script: every definition
is translated from the Python source.  The while-loops of the question
extractor are rendered as structurally recursive functions on the list of
remaining lines, with a fuel argument standing for the loop bound; the fuel is
instantiated with the block length, which suffices because every iteration of
the source loop consumes at least one line.  Character classes of the regular
expressions are modelled on their ASCII behaviour (plus the common Unicode
whitespace for the normalization step); the source documents are ASCII exam
dumps.
-/

namespace BuildBanks

/-- Characters Python treats as whitespace: str.strip() with no argument and
the regex class used by normalize_line strip exactly these (ASCII whitespace,
the C1 separators, and the Unicode space characters). -/
def isPySpace (c : Char) : Bool :=
  c = ' ' || c = '\t' || c = '\n' || c = '\x0b' || c = '\x0c' || c = '\r' ||
  c = '\x1c' || c = '\x1d' || c = '\x1e' || c = '\x1f' ||
  c = '\x85' || c = '\xa0' || c = ' ' ||
  (' ' ≤ c && c ≤ ' ') ||
  c = ' ' || c = ' ' || c = ' ' || c = ' ' || c = '　'

/-- Python \d restricted to its ASCII part (the source documents are ASCII). -/
def pyIsDigit (c : Char) : Bool := c.isDigit

/-- Removing the trailing whitespace run of a character list (the right half
of s.strip()). -/
def dropTrailingWs : List Char → List Char
  | [] => []
  | c :: cs =>
    let r := dropTrailingWs cs
    if r.isEmpty && isPySpace c then [] else c :: r

/-- s.strip() on the character list: drop the leading and the trailing
whitespace run. -/
def pyStripChars (l : List Char) : List Char :=
  dropTrailingWs (l.dropWhile isPySpace)

/-- s.strip(). -/
def pyStrip (s : String) : String := ⟨pyStripChars s.data⟩

/-- One pass of re.sub(r"\s+", " ", _): each maximal whitespace run becomes a
single space.  The flag records whether the previous character was whitespace
(so a run emits exactly one space). -/
def collapseWsAux : Bool → List Char → List Char
  | _, [] => []
  | prevWs, c :: cs =>
    if isPySpace c then
      if prevWs then collapseWsAux true cs
      else ' ' :: collapseWsAux true cs
    else c :: collapseWsAux false cs

/-- normalize_line on the character list: strip, then collapse whitespace. -/
def normalizeChars (l : List Char) : List Char :=
  collapseWsAux false (pyStripChars l)

/-- normalize_line(s) = re.sub(r"\s+", " ", s.strip()). -/
def normalize_line (s : String) : String :=
  ⟨normalizeChars s.data⟩

/-- ' '.join(parts). -/
def joinSpace : List String → String
  | [] => ""
  | [s] => s
  | s :: rest => s ++ " " ++ joinSpace rest

/-- QUESTION_START_RE = re.compile(r"^(\d{1,3})\s*[\).]?\s*(.*)"), via
re.match (prefix match).  The pattern is deterministic: \d{1,3} greedily takes
up to three digits of the leading digit run and everything afterwards is
optional, so no backtracking arises.  Returns (group 1, group 2). -/
def questionStartMatch (s : String) : Option (String × String) :=
  let ds := (s.data.takeWhile pyIsDigit).take 3
  if ds.isEmpty then none
  else
    let r1 := (s.data.drop ds.length).dropWhile isPySpace
    let r2 := match r1 with
      | c :: rest => if c = ')' || c = '.' then rest else r1
      | [] => []
    some (⟨ds⟩, ⟨(r2.dropWhile isPySpace).takeWhile (fun c => c ≠ '\n')⟩)

/-- The bullet class of OPTION_RE: [\s\-\•]. -/
def isOptLead (c : Char) : Bool := isPySpace c || c = '-' || c = '•'

/-- The letter class of OPTION_RE: [A-Ea-e]. -/
def isOptLetter (c : Char) : Bool := ('A' ≤ c && c ≤ 'E') || ('a' ≤ c && c ≤ 'e')

/-- The separator class of OPTION_RE: [\).\-:]. -/
def isOptSep (c : Char) : Bool := c = ')' || c = '.' || c = '-' || c = ':'

/-- OPTION_RE = re.compile(r"^[\s\-\•]*([A-Ea-e])[\).\-:]\s*(.*)"), via
re.match.  The leading class is disjoint from the letter class, so greedy
matching is exact.  Returns (group 1, group 2). -/
def optionMatch (s : String) : Option (Char × String) :=
  match s.data.dropWhile isOptLead with
  | c :: d :: rest =>
    if isOptLetter c && isOptSep d then
      some (c, ⟨(rest.dropWhile isPySpace).takeWhile (fun x => x ≠ '\n')⟩)
    else none
  | _ => none

/-- Case-insensitive comparison of a pattern character with an input character
(re.I on the ASCII pattern letters of this script). -/
def charCiEq (p c : Char) : Bool := p.toLower = c.toLower

/-- Match a literal pattern case-insensitively against a prefix of the input,
returning the remaining input. -/
def ciPrefixDrop : List Char → List Char → Option (List Char)
  | [], l => some l
  | _ :: _, [] => none
  | p :: ps, c :: cs => if charCiEq p c then ciPrefixDrop ps cs else none

/-- YEAR_HEADER_RE = re.compile(r"^(20\d{2})\s+NATIONAL QUALIFYING", re.I),
via re.match (prefix match).  Returns group 1, the four-digit year. -/
def yearHeaderMatch (s : String) : Option String :=
  match s.data with
  | '2' :: '0' :: c :: d :: rest =>
    if pyIsDigit c && pyIsDigit d then
      match rest with
      | e :: r =>
        if isPySpace e then
          match ciPrefixDrop "NATIONAL QUALIFYING".data (r.dropWhile isPySpace) with
          | some _ => some ⟨['2', '0', c, d]⟩
          | none => none
        else none
      | [] => none
    else none
  | _ => none

/-- \s+ : at least one whitespace character, matched greedily. -/
def wsPlusDrop : List Char → Option (List Char)
  | c :: cs => if isPySpace c then some (cs.dropWhile isPySpace) else none
  | [] => none

/-- Whether the rest of the line is consumed by the trailing \s*$ anchor. -/
def allWs (l : List Char) : Bool := l.all isPySpace

/-- An alternative of SUBJECT_LINE_RE that is one literal word. -/
def altSimple (lit : String) (l : List Char) : List (List Char) :=
  match ciPrefixDrop lit.data l with
  | some r => [r]
  | none => []

/-- The alternative GENERAL\s+KNOWLEDGE(?:\s+SCIENTIFIC\s+FIELD)? of
SUBJECT_LINE_RE.  Candidate remainders in the order the regex engine tries
them: the greedy optional part first, then without it. -/
def altGK (l : List Char) : List (List Char) :=
  match ciPrefixDrop "GENERAL".data l with
  | none => []
  | some r1 =>
    match wsPlusDrop r1 with
    | none => []
    | some r2 =>
      match ciPrefixDrop "KNOWLEDGE".data r2 with
      | none => []
      | some r3 =>
        let withOpt :=
          match wsPlusDrop r3 with
          | none => []
          | some r4 =>
            match ciPrefixDrop "SCIENTIFIC".data r4 with
            | none => []
            | some r5 =>
              match wsPlusDrop r5 with
              | none => []
              | some r6 =>
                match ciPrefixDrop "FIELD".data r6 with
                | some r7 => [r7]
                | none => []
        withOpt ++ [r3]

/-- The alternative GENERAL\s+\s*KNOWLEDGE\s*(?:&|AND)\s*(?:LANGUAGE|FRENCH)(?:A\.)?
of SUBJECT_LINE_RE (\s+\s* collapses to \s+).  Candidate remainders,
greedy-first for the optional (?:A\.)?. -/
def altGKLang (l : List Char) : List (List Char) :=
  match ciPrefixDrop "GENERAL".data l with
  | none => []
  | some r1 =>
    match wsPlusDrop r1 with
    | none => []
    | some r2 =>
      match ciPrefixDrop "KNOWLEDGE".data r2 with
      | none => []
      | some r3 =>
        let r4 := r3.dropWhile isPySpace
        let conj : Option (List Char) :=
          match r4 with
          | '&' :: rest => some rest
          | _ => ciPrefixDrop "AND".data r4
        match conj with
        | none => []
        | some r5 =>
          let r6 := r5.dropWhile isPySpace
          let tail : Option (List Char) :=
            match ciPrefixDrop "LANGUAGE".data r6 with
            | some r7 => some r7
            | none => ciPrefixDrop "FRENCH".data r6
          match tail with
          | none => []
          | some r7 =>
            let withA :=
              match r7 with
              | a :: '.' :: rest => if charCiEq 'A' a then [rest] else []
              | _ => []
            withA ++ [r7]

/-- The alternative FRENCH(?:\s+LANGUAGE)? of SUBJECT_LINE_RE. -/
def altFrench (l : List Char) : List (List Char) :=
  match ciPrefixDrop "FRENCH".data l with
  | none => []
  | some r1 =>
    let withLang :=
      match wsPlusDrop r1 with
      | none => []
      | some r2 =>
        match ciPrefixDrop "LANGUAGE".data r2 with
        | some r3 => [r3]
        | none => []
    withLang ++ [r1]

/-- SUBJECT_LINE_RE, via re.match: the alternation in source order, each
alternative anchored by \s*$, returning group 1 (the matched header text in
its original case).  Candidates are listed in the engine's preference order,
so taking the first candidate whose remainder is all whitespace reproduces the
leftmost-alternative, greedy-optional semantics of the pattern. -/
def subjectLineMatch (s : String) : Option String :=
  let l := s.data
  let cands := altSimple "BIOLOGY" l ++ altSimple "CHEMISTRY" l ++
    altSimple "PHYSICS" l ++ altGK l ++ altGKLang l ++ altFrench l
  match cands.find? (fun r => allWs r) with
  | some r => some ⟨l.take (l.length - r.length)⟩
  | none => none

/-- SUBJECT_ALIASES, in source order (note the double space in the
GENERAL  KNOWLEDGE AND FRENCH key and the trailing space in the second
GENERAL KNOWLEDGE & LANGUAGE key: those two entries can never be produced by
a normalized header line). -/
def SUBJECT_ALIASES : List (String × String) :=
  [("BIOLOGY", "biology"),
   ("CHEMISTRY", "chemistry"),
   ("PHYSICS", "physics"),
   ("GENERAL KNOWLEDGE", "general-knowledge"),
   ("GENERAL KNOWLEDGE SCIENTIFIC FIELD", "general-knowledge"),
   ("GENERAL  KNOWLEDGE AND FRENCH", "general-knowledge"),
   ("GENERAL KNOWLEDGE & LANGUAGE", "general-knowledge"),
   ("GENERAL KNOWLEDGE & LANGUAGE ", "general-knowledge"),
   ("GENERAL KNOWLEDGE AND FRENCHA.", "general-knowledge"),
   ("FRENCH", "french"),
   ("FRENCH LANGUAGE", "french")]

/-- str.upper() on the matched header text (ASCII letters; Char.toUpper is
the identity beyond ASCII, like str.upper() on the characters these headers
can contain). -/
def pyUpper (s : String) : String := ⟨s.data.map Char.toUpper⟩

/-- The subject key a (normalized) line resolves to: SUBJECT_LINE_RE match,
then SUBJECT_ALIASES.get(matched.upper()). -/
def resolveSubjectKey (line : String) : Option String :=
  match subjectLineMatch line with
  | some title => SUBJECT_ALIASES.lookup (pyUpper title)
  | none => none

/-- One (year, subject_key, start_idx, end_idx) tuple of parse_subject_blocks. -/
structure SubjectBlock where
  year : String
  subjectKey : String
  startIdx : Nat
  endIdx : Nat
deriving DecidableEq

/-- The loop state of parse_subject_blocks: current_year, last_subject_idx,
last_subject_key and the emitted blocks. -/
structure SegState where
  currentYear : Option String
  lastSubjectIdx : Option Nat
  lastSubjectKey : Option String
  blocks : List SubjectBlock
deriving DecidableEq

/-- Closing the previous subject block at line index i:
blocks.append((current_year or '', last_subject_key, last_subject_idx, i))
when both are set. -/
def closeBlock (st : SegState) (i : Nat) : List SubjectBlock :=
  match st.lastSubjectIdx, st.lastSubjectKey with
  | some li, some lk => st.blocks ++ [⟨st.currentYear.getD "", lk, li, i⟩]
  | _, _ => st.blocks

/-- The body of the parse_subject_blocks loop for line index i. -/
def segStep (st : SegState) (i : Nat) (raw : String) : SegState :=
  let line := normalize_line raw
  if line = "" then st
  else
    match yearHeaderMatch line with
    | some y => { st with currentYear := some y }
    | none =>
      match subjectLineMatch line with
      | none => st
      | some title =>
        match SUBJECT_ALIASES.lookup (pyUpper title) with
        | none => st
        | some key =>
          { currentYear := st.currentYear
            lastSubjectIdx := some (i + 1)
            lastSubjectKey := some key
            blocks := closeBlock st i }

/-- The for-loop of parse_subject_blocks over enumerate(lines). -/
def segLoop (st : SegState) (i : Nat) : List String → SegState
  | [] => st
  | raw :: rest => segLoop (segStep st i raw) (i + 1) rest

/-- parse_subject_blocks(lines). -/
def parse_subject_blocks (lines : List String) : List SubjectBlock :=
  closeBlock (segLoop ⟨none, none, none, []⟩ 0 lines) lines.length

/-- One question record as emitted by parse_questions_from_block:
keys question, options, answer (always None at build time), year. -/
structure Question where
  question : String
  options : List String
  answer : Option String
  year : Option String
deriving DecidableEq

/-- The accumulation loop of parse_questions_from_block that gathers question
text lines until the first option line or the next question line; returns the
accumulated qtext_parts and the remaining lines.  The cursor of the source is
rendered as the list of lines not yet consumed. -/
def qAccumList (acc : List String) : List String → List String × List String
  | [] => (acc, [])
  | l :: rest =>
    let nl := normalize_line l
    if (optionMatch nl).isSome then (acc, l :: rest)
    else if (questionStartMatch nl).isSome then (acc, l :: rest)
    else if nl ≠ "" then qAccumList (acc ++ [nl]) rest
    else qAccumList acc rest

/-- The inner coalescing loop of parse_questions_from_block: absorb the
non-blank continuation lines of one option until the next option line or
question line; returns the normalized cont_parts and the remaining lines. -/
def absorbCont (acc : List String) : List String → List String × List String
  | [] => (acc, [])
  | l :: rest =>
    let nl2 := normalize_line l
    if nl2 = "" then absorbCont acc rest
    else if (optionMatch nl2).isSome || (questionStartMatch nl2).isSome then (acc, l :: rest)
    else absorbCont (acc ++ [nl2]) rest

/-- opt_text after coalescing wrapped option lines:
normalize_line(opt_text + ' ' + ' '.join(cont_parts)) when there are
continuation parts, else opt_text unchanged. -/
def coalesceOption (optText : String) (contParts : List String) : String :=
  if contParts.isEmpty then optText
  else normalize_line (optText ++ " " ++ joinSpace contParts)

/-- options[letter] = text, with Python dict semantics: update the existing
binding in place, append a new binding at the end. -/
def insertOpt (opts : List (Char × String)) (k : Char) (v : String) : List (Char × String) :=
  if opts.any (fun p => p.1 = k) then
    opts.map (fun p => if p.1 = k then (k, v) else p)
  else opts ++ [(k, v)]

/-- The option-collection loop of parse_questions_from_block.  The fuel
argument renders the while-loop bound; every iteration consumes at least one
line, so fuel at least the number of remaining lines makes the truncation
branch unreachable.  Returns the collected options dict and the remaining
lines. -/
def collectOptionsLoop : Nat → List (Char × String) → List String →
    List (Char × String) × List String
  | _, opts, [] => (opts, [])
  | 0, opts, rest => (opts, rest)
  | fuel + 1, opts, l :: rest =>
    let nl := normalize_line l
    match optionMatch nl with
    | none =>
      if (questionStartMatch nl).isSome then (opts, l :: rest)
      else collectOptionsLoop fuel opts rest
    | some (letter, text) =>
      let ab := absorbCont [] rest
      collectOptionsLoop fuel
        (insertOpt opts letter.toUpper (coalesceOption (pyStrip text) ab.1)) ab.2

/-- The ordered (letter, text) pairs of one question:
sorted(options.keys()) paired with their texts. -/
def sortedOptionPairs (opts : List (Char × String)) : List (Char × String) :=
  (List.insertionSort (fun a b : Char => a ≤ b) (opts.map Prod.fst)).filterMap
    (fun k => (opts.lookup k).map (fun v => (k, v)))

/-- opts = [options[k] for k in sorted(options.keys())]. -/
def sortedOptionTexts (opts : List (Char × String)) : List String :=
  (sortedOptionPairs opts).map Prod.snd

/-- The outer question loop of parse_questions_from_block, fuel-bounded like
collectOptionsLoop. -/
def pqLoop (default_year : String) : Nat → List String → List Question
  | _, [] => []
  | 0, _ => []
  | fuel + 1, l :: rest =>
    let line := normalize_line l
    if line = "" then pqLoop default_year fuel rest
    else
      match questionStartMatch line with
      | none => pqLoop default_year fuel rest
      | some (_, qrest) =>
        let qa := qAccumList [pyStrip qrest] rest
        let co := collectOptionsLoop fuel [] qa.2
        let opts := if co.1.isEmpty then [] else sortedOptionTexts co.1
        let question_text := pyStrip (normalize_line (joinSpace qa.1))
        if question_text = "" then pqLoop default_year fuel co.2
        else
          { question := question_text, options := opts, answer := none,
            year := if default_year = "" then none else some default_year } ::
            pqLoop default_year fuel co.2

/-- parse_questions_from_block(block_lines, default_year). -/
def parse_questions_from_block (block_lines : List String) (default_year : String) :
    List Question :=
  pqLoop default_year block_lines.length block_lines

/-- The question loop again, instrumented: identical to pqLoop except that
each emitted record is paired with the options dict the option-collection
loop built for it (the dict pqLoop sorts and then discards).  Used to state
that each record's option texts are exactly the texts of its own collected
letters in ascending letter order; the projection equality with pqLoop is
proved below. -/
def pqLoopWithOpts (default_year : String) :
    Nat → List String → List (Question × List (Char × String))
  | _, [] => []
  | 0, _ => []
  | fuel + 1, l :: rest =>
    let line := normalize_line l
    if line = "" then pqLoopWithOpts default_year fuel rest
    else
      match questionStartMatch line with
      | none => pqLoopWithOpts default_year fuel rest
      | some (_, qrest) =>
        let qa := qAccumList [pyStrip qrest] rest
        let co := collectOptionsLoop fuel [] qa.2
        let opts := if co.1.isEmpty then [] else sortedOptionTexts co.1
        let question_text := pyStrip (normalize_line (joinSpace qa.1))
        if question_text = "" then pqLoopWithOpts default_year fuel co.2
        else
          ({ question := question_text, options := opts, answer := none,
             year := if default_year = "" then none else some default_year }, co.1) ::
            pqLoopWithOpts default_year fuel co.2

/-- parse_questions_from_block instrumented with each record's collected
options dict. -/
def questionsWithOptions (block_lines : List String) (default_year : String) :
    List (Question × List (Char × String)) :=
  pqLoopWithOpts default_year block_lines.length block_lines

/-- Python list slicing lines[a:b] for natural indices. -/
def pySlice (l : List String) (a b : Nat) : List String := (l.drop a).take (b - a)

/-- The iteration order of the per_subject dict in main: its five initial
keys (no block ever carries another key, so setdefault never extends it). -/
def subjectKeysInit : List String :=
  ["biology", "chemistry", "physics", "general-knowledge", "french"]

/-- The questions accumulated for one subject key by the block loop of main,
in block order. -/
def collectForKey (lines : List String) (key : String) : List Question :=
  ((parse_subject_blocks lines).filter (fun b => b.subjectKey = key)).flatMap
    (fun b => parse_questions_from_block (pySlice lines b.startIdx b.endIdx) b.year)

/-- The deduplication loop of main over one subject's items, with the running
seen set rendered as the list of question texts already kept. -/
def dedupeAux (seen : List String) : List Question → List Question
  | [] => []
  | it :: rest =>
    if seen.contains it.question then dedupeAux seen rest
    else it :: dedupeAux (it.question :: seen) rest

/-- Deduplicate rough duplicates by question text (first occurrence wins). -/
def dedupeByQuestion (items : List Question) : List Question := dedupeAux [] items

/-- The per-subject output lists of main, in the dict's iteration order. -/
def buildBanks (lines : List String) : List (String × List Question) :=
  subjectKeysInit.map (fun key => (key, dedupeByQuestion (collectForKey lines key)))

/-- One hexadecimal digit, lowercase, as json.dump prints control escapes. -/
def hexDigit (n : Nat) : String :=
  ["0", "1", "2", "3", "4", "5", "6", "7", "8", "9", "a", "b", "c", "d", "e", "f"].getD n "0"

/-- One character of a JSON string as json.dump(..., ensure_ascii=False)
writes it. -/
def jsonEscapeChar (c : Char) : String :=
  if c = '"' then "\\\""
  else if c = '\\' then "\\\\"
  else if c = '\n' then "\\n"
  else if c = '\t' then "\\t"
  else if c = '\r' then "\\r"
  else if c = '\x08' then "\\b"
  else if c = '\x0c' then "\\f"
  else if c.toNat < 0x20 then "\\u00" ++ hexDigit (c.toNat / 16) ++ hexDigit (c.toNat % 16)
  else String.singleton c

/-- A JSON string literal, non-ASCII characters kept literally. -/
def jsonString (s : String) : String :=
  "\"" ++ s.data.foldl (fun a c => a ++ jsonEscapeChar c) "" ++ "\""

/-- The options array of one record as json.dump(..., indent=2) nests it. -/
def jsonOptions (options : List String) : String :=
  match options with
  | [] => "[]"
  | _ => "[\n" ++
      String.intercalate ",\n" (options.map (fun o => "      " ++ jsonString o)) ++
      "\n    ]"

/-- One question object as json.dump(..., indent=2) prints it inside the
top-level array (dict key order: question, options, answer, year). -/
def jsonQuestion (q : Question) : String :=
  "  \x7b\n    \"question\": " ++ jsonString q.question ++
  ",\n    \"options\": " ++ jsonOptions q.options ++
  ",\n    \"answer\": " ++ (match q.answer with | none => "null" | some a => jsonString a) ++
  ",\n    \"year\": " ++ (match q.year with | none => "null" | some y => jsonString y) ++
  "\n  \x7d"

/-- json.dump(deduped, f, ensure_ascii=False, indent=2) for one subject list. -/
def jsonOfBank (qs : List Question) : String :=
  match qs with
  | [] => "[]"
  | _ => "[\n" ++ String.intercalate ",\n" (qs.map jsonQuestion) ++ "\n]"

/-- The serialized output of one whole run: for each subject key the output
file name and its exact file contents. -/
def runOutputs (lines : List String) : List (String × String) :=
  (buildBanks lines).map (fun p => (p.1 ++ "-full.json", jsonOfBank p.2))

/-- The observable end of one process run: a normal exit with its code and
the lines printed to standard output, or termination by an uncaught
exception (Python prints a traceback and exits with code 1). -/
inductive CliOutcome where
  | exited (code : Nat) (stdout : List String)
  | crashed
deriving DecidableEq

/-- The usage line printed when arguments are missing. -/
def usageMessage : String := "Usage: python build_banks.py <input_txt> <output_dir>"

/-- The process exit code of an outcome. -/
def cliExitCode : CliOutcome → Nat
  | .exited code _ => code
  | .crashed => 1

/-- Whether a string starts with the path separator. -/
def strStartsWithSlash (s : String) : Bool :=
  match s.data with
  | '/' :: _ => true
  | _ => false

/-- Whether a string ends with the path separator. -/
def strEndsWithSlash (s : String) : Bool :=
  match s.data.getLast? with
  | some '/' => true
  | _ => false

/-- os.path.join(a, b) with POSIX semantics: an absolute second component
replaces the first, an empty or separator-terminated first component takes
no extra separator, otherwise one slash is inserted. -/
def pyJoin (a b : String) : String :=
  if strStartsWithSlash b then b
  else if a = "" then b
  else if strEndsWithSlash a then a ++ b
  else a ++ "/" ++ b

/-- The output loop of main over per_subject.items(): for each subject,
open(out_path, 'w') and json.dump, then print the count line.  open (or the
write) raising on some path is the none case of writeFile; the first failure
aborts the loop (the exception propagates).  Returns the printed lines, or
none when a write failed. -/
def writeBanks (outDir : String) (writeFile : String → String → Option Unit) :
    List (String × List Question) → Option (List String)
  | [] => some []
  | bank :: rest =>
    match writeFile (pyJoin outDir (bank.1 ++ "-full.json")) (jsonOfBank bank.2) with
    | none => none
    | some _ =>
      match writeBanks outDir writeFile rest with
      | none => none
      | some out =>
        some (("Wrote " ++ toString bank.2.length ++ " questions to " ++
          pyJoin outDir (bank.1 ++ "-full.json")) :: out)

/-- The __main__ block: argv is sys.argv (argv[0] is the script name), and
the filesystem effects main performs are rendered as partial maps: readFile
for open(input).read().splitlines() (none = open raises, uncaught),
makedirs for os.makedirs(out_dir, exist_ok=True) (none = raises, e.g. the
path exists as a regular file), and writeFile for opening one output path
and writing its JSON contents (none = raises).  Any such failure propagates
and the process dies with the interpreter's exit code 1; the crashed
outcome models that exit behaviour only (lines printed before the failure
are not retained). -/
def cliRun (argv : List String) (readFile : String → Option (List String))
    (makedirs : String → Option Unit)
    (writeFile : String → String → Option Unit) : CliOutcome :=
  match argv with
  | _ :: inPath :: outDir :: _ =>
    match readFile inPath with
    | none => .crashed
    | some rawLines =>
      match makedirs outDir with
      | none => .crashed
      | some _ =>
        match writeBanks outDir writeFile (buildBanks rawLines) with
        | none => .crashed
        | some stdout => .exited 0 stdout
  | _ => .exited 1 [usageMessage]

/-! Auxiliary notions used only to state and prove properties about the
definitions above. -/

/-- The first character, when there is one, is not whitespace. -/
def headNotWs : List Char → Bool
  | [] => true
  | c :: _ => !isPySpace c

/-- There is a first character and it is not whitespace. -/
def startsNonWs : List Char → Bool
  | [] => false
  | c :: _ => !isPySpace c

/-- The last character, when there is one, is not whitespace. -/
def lastNotWs : List Char → Bool
  | [] => true
  | [c] => !isPySpace c
  | _ :: cs => lastNotWs cs

/-- Every whitespace character of the list is a single space followed by a
non-whitespace character. -/
def normTail : List Char → Bool
  | [] => true
  | c :: cs => (if isPySpace c then c = ' ' && startsNonWs cs else true) && normTail cs

/-- The normal form that normalize_line produces: no leading or trailing
whitespace, every internal whitespace run a single space. -/
def isNormal (l : List Char) : Bool := headNotWs l && normTail l

/-- The five upper-case letters an option key can be. -/
def upperOptionLetters : List Char := ['A', 'B', 'C', 'D', 'E']

/-- The invariant of the options dict of one question: its keys are distinct
letters drawn from A-E. -/
def OptKeysOk (opts : List (Char × String)) : Prop :=
  (opts.map Prod.fst).Nodup ∧ ∀ k ∈ opts.map Prod.fst, k ∈ upperOptionLetters

/-- How a section start index moves when a line is inserted at position k:
a start index is a header index plus one, so the value k stays put. -/
def shiftStart (k s : Nat) : Nat := if s ≤ k then s else s + 1

/-- How a section end index moves when a line is inserted at position k:
an end index is a closing header index or the document length, so the value
k moves to k + 1. -/
def shiftEnd (k e : Nat) : Nat := if e < k then e else e + 1

/-- The index shift of one section descriptor under insertion at position k. -/
def shiftBlock (k : Nat) (b : SubjectBlock) : SubjectBlock :=
  ⟨b.year, b.subjectKey, shiftStart k b.startIdx, shiftEnd k b.endIdx⟩

/-- The index shift of a whole segmentation state under insertion at k. -/
def shiftState (k : Nat) (st : SegState) : SegState :=
  ⟨st.currentYear, st.lastSubjectIdx.map (shiftStart k), st.lastSubjectKey,
    st.blocks.map (shiftBlock k)⟩

/-- All indices stored in a segmentation state are below the next line index
n (pending starts can equal n; emitted ends are strictly below). -/
def SegBounded (st : SegState) (n : Nat) : Prop :=
  (∀ v ∈ st.lastSubjectIdx, v ≤ n) ∧
  ∀ b ∈ st.blocks, b.startIdx ≤ n ∧ b.endIdx < n

/-- A line the segmentation loop ignores: not blank is irrelevant here — the
condition is that it is neither a year header nor resolved by the alias
table (blank lines satisfy both). -/
def segTransparent (l : String) : Prop :=
  yearHeaderMatch (normalize_line l) = none ∧
  resolveSubjectKey (normalize_line l) = none

/-! Normal-form lemmas for normalize_line: its output has no leading or
trailing whitespace and single internal spaces, and it is the identity on
such strings. -/

theorem lastNotWs_cons_of_ne (c : Char) (cs : List Char) (h : cs ≠ []) :
    lastNotWs (c :: cs) = lastNotWs cs := by
  cases cs with
  | nil => exact absurd rfl h
  | cons d ds => rfl

theorem exists_nonWs_of_lastNotWs (l : List Char) (hne : l ≠ [])
    (h : lastNotWs l = true) : ∃ d ∈ l, isPySpace d = false := by
  induction l with
  | nil => exact absurd rfl hne
  | cons c cs ih =>
    cases cs with
    | nil =>
      refine ⟨c, List.mem_cons_self _ _, ?_⟩
      simpa [lastNotWs] using h
    | cons d ds =>
      have h' : lastNotWs (d :: ds) = true := by simpa [lastNotWs] using h
      obtain ⟨e, he, hew⟩ := ih (by simp) h'
      exact ⟨e, List.mem_cons_of_mem _ he, hew⟩

theorem startsNonWs_collapse_true (l : List Char)
    (h : ∃ d ∈ l, isPySpace d = false) :
    startsNonWs (collapseWsAux true l) = true := by
  induction l with
  | nil => simp at h
  | cons c cs ih =>
    by_cases hc : isPySpace c = true
    · have h' : ∃ d ∈ cs, isPySpace d = false := by
        obtain ⟨d, hd, hdw⟩ := h
        rcases List.mem_cons.mp hd with rfl | hd'
        · exact absurd hc (by simp [hdw])
        · exact ⟨d, hd', hdw⟩
      simpa [collapseWsAux, hc] using ih h'
    · simp [collapseWsAux, hc, startsNonWs]

theorem normTail_collapse (l : List Char) (h : lastNotWs l = true) :
    ∀ b, normTail (collapseWsAux b l) = true := by
  induction l with
  | nil => intro b; simp [collapseWsAux, normTail]
  | cons c cs ih =>
    intro b
    by_cases hc : isPySpace c = true
    · have hcs : cs ≠ [] := by
        intro hnil
        subst hnil
        simp [lastNotWs] at h
        simp [h] at hc
      have h' : lastNotWs cs = true := by
        rwa [lastNotWs_cons_of_ne c cs hcs] at h
      have hex : ∃ d ∈ cs, isPySpace d = false :=
        exists_nonWs_of_lastNotWs cs hcs h'
      cases b with
      | true => simpa [collapseWsAux, hc] using ih h' true
      | false =>
        simp only [collapseWsAux, hc, if_true]
        simp [normTail, startsNonWs_collapse_true cs hex, ih h' true]
    · have h' : lastNotWs cs = true := by
        cases cs with
        | nil => rfl
        | cons d ds => rwa [lastNotWs_cons_of_ne c (d :: ds) (by simp)] at h
      simp [collapseWsAux, hc, normTail, ih h' false]

theorem collapse_eq_self (l : List Char) (h : normTail l = true) :
    collapseWsAux false l = l ∧
      (startsNonWs l = true → collapseWsAux true l = l) := by
  induction l with
  | nil => exact ⟨rfl, fun _ => rfl⟩
  | cons c cs ih =>
    by_cases hc : isPySpace c = true
    · have hg : (c = ' ' && startsNonWs cs) = true ∧ normTail cs = true := by
        have := h
        simp [normTail, hc] at this
        exact ⟨by simp [this.1.1, this.1.2], this.2⟩
      have hsp : c = ' ' := by
        have := hg.1
        simp at this
        exact this.1
      have hst : startsNonWs cs = true := by
        have := hg.1
        simp at this
        exact this.2
      have ihcs := ih hg.2
      constructor
      · subst hsp
        have hsp' : isPySpace ' ' = true := by decide
        simp [collapseWsAux, hsp', ihcs.2 hst]
      · intro habs
        simp [startsNonWs, hc] at habs
    · have h' : normTail cs = true := by simpa [normTail, hc] using h
      have ihcs := ih h'
      constructor
      · simp [collapseWsAux, hc, ihcs.1]
      · intro _
        simp [collapseWsAux, hc, ihcs.1]

theorem normTail_cons_elim (c : Char) (cs : List Char)
    (h : normTail (c :: cs) = true) : normTail cs = true := by
  rw [normTail, Bool.and_eq_true] at h
  exact h.2

theorem normTail_cons_ws_elim (c : Char) (cs : List Char)
    (h : normTail (c :: cs) = true) (hc : isPySpace c = true) :
    c = ' ' ∧ startsNonWs cs = true := by
  rw [normTail, Bool.and_eq_true] at h
  have := h.1
  rw [if_pos hc, Bool.and_eq_true, decide_eq_true_eq] at this
  exact this

theorem normTail_cons_intro (c : Char) (cs : List Char)
    (hg : isPySpace c = true → c = ' ' ∧ startsNonWs cs = true)
    (ht : normTail cs = true) : normTail (c :: cs) = true := by
  rw [normTail, Bool.and_eq_true]
  refine ⟨?_, ht⟩
  by_cases hc : isPySpace c = true
  · rw [if_pos hc, Bool.and_eq_true, decide_eq_true_eq]
    exact hg hc
  · rw [if_neg hc]

theorem lastNotWs_of_normTail (l : List Char) (h : normTail l = true) :
    lastNotWs l = true := by
  induction l with
  | nil => rfl
  | cons c cs ih =>
    cases cs with
    | nil =>
      by_cases hc : isPySpace c = true
      · have := (normTail_cons_ws_elim c [] h hc).2
        simp [startsNonWs] at this
      · simpa [lastNotWs] using hc
    | cons d ds =>
      rw [lastNotWs_cons_of_ne c (d :: ds) (by simp)]
      exact ih (normTail_cons_elim c (d :: ds) h)

theorem headNotWs_dropWhile (l : List Char) :
    headNotWs (l.dropWhile isPySpace) = true := by
  induction l with
  | nil => rfl
  | cons c cs ih =>
    by_cases hc : isPySpace c = true
    · simpa [List.dropWhile, hc] using ih
    · simp [List.dropWhile, hc, headNotWs]

theorem headNotWs_dropTrailingWs (l : List Char) (h : headNotWs l = true) :
    headNotWs (dropTrailingWs l) = true := by
  cases l with
  | nil => rfl
  | cons c cs =>
    simp only [dropTrailingWs]
    split
    · rfl
    · simpa [headNotWs] using h

theorem lastNotWs_dropTrailingWs (l : List Char) :
    lastNotWs (dropTrailingWs l) = true := by
  induction l with
  | nil => rfl
  | cons c cs ih =>
    simp only [dropTrailingWs]
    split
    · rfl
    · rename_i hguard
      cases hr : dropTrailingWs cs with
      | nil =>
        have hcw : isPySpace c = false := by
          by_cases hc : isPySpace c = true
          · exact absurd (by simp [hr, hc]) hguard
          · simpa using hc
        simpa [hr, lastNotWs] using hcw
      | cons d ds =>
        rw [lastNotWs_cons_of_ne c (d :: ds) (by simp)]
        rw [hr] at ih
        exact ih

theorem headNotWs_collapse (l : List Char) (h : headNotWs l = true) :
    headNotWs (collapseWsAux false l) = true := by
  cases l with
  | nil => rfl
  | cons c cs =>
    have hc : isPySpace c = false := by simpa [headNotWs] using h
    simp [collapseWsAux, hc, headNotWs]

theorem isNormal_normalizeChars (l : List Char) :
    isNormal (normalizeChars l) = true := by
  have h1 : headNotWs (pyStripChars l) = true :=
    headNotWs_dropTrailingWs _ (headNotWs_dropWhile l)
  have h2 : lastNotWs (pyStripChars l) = true := lastNotWs_dropTrailingWs _
  have h3 := normTail_collapse (pyStripChars l) h2 false
  have h4 := headNotWs_collapse (pyStripChars l) h1
  simp [isNormal, normalizeChars, h3, h4]

theorem dropWhile_eq_self_of_headNotWs (l : List Char) (h : headNotWs l = true) :
    l.dropWhile isPySpace = l := by
  cases l with
  | nil => rfl
  | cons c cs =>
    have hc : isPySpace c = false := by simpa [headNotWs] using h
    simp [List.dropWhile, hc]

theorem dropTrailingWs_eq_self_of_lastNotWs (l : List Char)
    (h : lastNotWs l = true) : dropTrailingWs l = l := by
  induction l with
  | nil => rfl
  | cons c cs ih =>
    cases cs with
    | nil =>
      have hc : isPySpace c = false := by simpa [lastNotWs] using h
      simp [dropTrailingWs, hc]
    | cons d ds =>
      have h' : lastNotWs (d :: ds) = true := by
        rwa [lastNotWs_cons_of_ne c (d :: ds) (by simp)] at h
      have hre := ih h'
      rw [dropTrailingWs, hre]
      simp

theorem pyStripChars_eq_self_of_isNormal (l : List Char)
    (h : isNormal l = true) : pyStripChars l = l := by
  have h1 : headNotWs l = true := by
    have := h
    simp [isNormal] at this
    exact this.1
  have h2 : normTail l = true := by
    have := h
    simp [isNormal] at this
    exact this.2
  rw [pyStripChars, dropWhile_eq_self_of_headNotWs l h1,
    dropTrailingWs_eq_self_of_lastNotWs l (lastNotWs_of_normTail l h2)]

theorem normalizeChars_eq_self_of_isNormal (l : List Char)
    (h : isNormal l = true) : normalizeChars l = l := by
  have h2 : normTail l = true := by
    have := h
    simp [isNormal] at this
    exact this.2
  rw [normalizeChars, pyStripChars_eq_self_of_isNormal l h]
  exact (collapse_eq_self l h2).1

theorem isNormal_iff_normalizeChars_eq (l : List Char) :
    isNormal l = true ↔ normalizeChars l = l := by
  constructor
  · exact normalizeChars_eq_self_of_isNormal l
  · intro h
    have := isNormal_normalizeChars l
    rwa [h] at this

theorem startsNonWs_append_left (a b : List Char) (ha : a ≠ []) :
    startsNonWs (a ++ b) = startsNonWs a := by
  cases a with
  | nil => exact absurd rfl ha
  | cons c cs => rfl

theorem normTail_join (a b : List Char) (hna : normTail a = true)
    (hla : lastNotWs a = true) (ha : a ≠ []) (hsb : startsNonWs b = true)
    (hnb : normTail b = true) : normTail (a ++ ' ' :: b) = true := by
  induction a with
  | nil => exact absurd rfl ha
  | cons c cs ih =>
    cases cs with
    | nil =>
      have hc : isPySpace c = false := by simpa [lastNotWs] using hla
      refine normTail_cons_intro c (' ' :: b) (fun hcw => ?_) ?_
      · rw [hc] at hcw
        exact absurd hcw (by simp)
      · refine normTail_cons_intro ' ' b (fun _ => ⟨rfl, hsb⟩) hnb
    | cons d ds =>
      have hrec : normTail ((d :: ds) ++ ' ' :: b) = true := by
        refine ih (normTail_cons_elim c (d :: ds) hna) ?_ (by simp)
        rwa [lastNotWs_cons_of_ne c (d :: ds) (by simp)] at hla
      refine normTail_cons_intro c ((d :: ds) ++ ' ' :: b) (fun hcw => ?_) hrec
      obtain ⟨hsp, hst⟩ := normTail_cons_ws_elim c (d :: ds) hna hcw
      refine ⟨hsp, ?_⟩
      rw [startsNonWs_append_left (d :: ds) (' ' :: b) (by simp)]
      exact hst

theorem string_data_append (a b : String) : (a ++ b).data = a.data ++ b.data := rfl

theorem string_eq_empty_iff (s : String) : s = "" ↔ s.data = [] := by
  cases s with
  | mk l =>
    constructor
    · intro h
      rw [h]
    · intro h
      rw [show l = ([] : List Char) from h]

theorem normalize_line_eq_self_iff (s : String) :
    normalize_line s = s ↔ isNormal s.data = true := by
  cases s with
  | mk l =>
    rw [isNormal_iff_normalizeChars_eq]
    constructor
    · intro h
      exact congrArg String.data h
    · intro h
      rw [normalize_line]
      exact congrArg String.mk h

theorem isNormal_normalize_line (s : String) :
    isNormal (normalize_line s).data = true := isNormal_normalizeChars s.data

theorem normalize_line_idem (s : String) :
    normalize_line (normalize_line s) = normalize_line s :=
  (normalize_line_eq_self_iff (normalize_line s)).mpr (isNormal_normalize_line s)

theorem pyStrip_eq_self_of_isNormal (s : String) (h : isNormal s.data = true) :
    pyStrip s = s := by
  cases s with
  | mk l => exact congrArg String.mk (pyStripChars_eq_self_of_isNormal l h)

theorem pyStrip_normalize_line (s : String) :
    pyStrip (normalize_line s) = normalize_line s :=
  pyStrip_eq_self_of_isNormal _ (isNormal_normalize_line s)

theorem headNotWs_append_left (a x : List Char) (h : headNotWs a = true)
    (ha : a ≠ []) : headNotWs (a ++ x) = true := by
  cases a with
  | nil => exact absurd rfl ha
  | cons c cs => simpa [headNotWs] using h

theorem startsNonWs_of_isNormal (s : String) (h : isNormal s.data = true)
    (hne : s ≠ "") : startsNonWs s.data = true := by
  have hd : s.data ≠ [] := fun hnil => hne ((string_eq_empty_iff s).mpr hnil)
  cases hl : s.data with
  | nil => exact absurd hl hd
  | cons c cs =>
    rw [isNormal, hl, Bool.and_eq_true] at h
    have := h.1
    rw [headNotWs] at this
    rw [startsNonWs]
    exact this

theorem joinSpace_isNormal (parts : List String) (hne : parts ≠ [])
    (h : ∀ p ∈ parts, isNormal p.data = true ∧ p ≠ "") :
    isNormal (joinSpace parts).data = true ∧ joinSpace parts ≠ "" := by
  induction parts with
  | nil => exact absurd rfl hne
  | cons p ps ih =>
    cases ps with
    | nil =>
      rw [joinSpace]
      exact h p (by simp)
    | cons q qs =>
      have hp := h p (by simp)
      have hrest : ∀ r ∈ q :: qs, isNormal r.data = true ∧ r ≠ "" := by
        intro r hr
        exact h r (List.mem_cons_of_mem _ hr)
      have hj := ih (by simp) hrest
      have hdata : (joinSpace (p :: q :: qs)).data =
          p.data ++ ' ' :: (joinSpace (q :: qs)).data := by
        simp [joinSpace, string_data_append, List.append_assoc]
      have hpd : p.data ≠ [] := fun hnil => hp.2 ((string_eq_empty_iff p).mpr hnil)
      have hpn : headNotWs p.data = true ∧ normTail p.data = true := by
        have := hp.1
        rwa [isNormal, Bool.and_eq_true] at this
      have hjn : headNotWs (joinSpace (q :: qs)).data = true ∧
          normTail (joinSpace (q :: qs)).data = true := by
        have := hj.1
        rwa [isNormal, Bool.and_eq_true] at this
      constructor
      · rw [isNormal, hdata, Bool.and_eq_true]
        constructor
        · exact headNotWs_append_left _ _ hpn.1 hpd
        · exact normTail_join _ _ hpn.2 (lastNotWs_of_normTail _ hpn.2) hpd
            (startsNonWs_of_isNormal _ hj.1 hj.2) hjn.2
      · intro hcon
        have := (string_eq_empty_iff _).mp hcon
        rw [hdata] at this
        exact hpd (List.append_eq_nil.mp this).1

theorem normalize_joinSpace_eq (parts : List String) (hne : parts ≠ [])
    (h : ∀ p ∈ parts, normalize_line p = p ∧ p ≠ "") :
    normalize_line (joinSpace parts) = joinSpace parts := by
  refine (normalize_line_eq_self_iff _).mpr ?_
  refine (joinSpace_isNormal parts hne ?_).1
  intro p hp
  exact ⟨(normalize_line_eq_self_iff p).mp (h p hp).1, (h p hp).2⟩

/-! The options dict of one question: keys are distinct letters A-E, a later
binding for the same letter overrides the earlier one, and the sorted output
lists the texts in ascending letter order. -/

theorem optLetter_toUpper_mem (c : Char) (h : isOptLetter c = true) :
    c.toUpper ∈ upperOptionLetters := by
  simp only [isOptLetter, Bool.or_eq_true, Bool.and_eq_true, decide_eq_true_eq] at h
  rcases h with ⟨h1, h2⟩ | ⟨h1, h2⟩
  · have hl : 65 ≤ c.toNat := h1
    have hr : c.toNat ≤ 69 := h2
    interval_cases h : c.toNat
    · rw [show c = 'A' from Char.ext (UInt32.ext h)]; decide
    · rw [show c = 'B' from Char.ext (UInt32.ext h)]; decide
    · rw [show c = 'C' from Char.ext (UInt32.ext h)]; decide
    · rw [show c = 'D' from Char.ext (UInt32.ext h)]; decide
    · rw [show c = 'E' from Char.ext (UInt32.ext h)]; decide
  · have hl : 97 ≤ c.toNat := h1
    have hr : c.toNat ≤ 101 := h2
    interval_cases h : c.toNat
    · rw [show c = 'a' from Char.ext (UInt32.ext h)]; decide
    · rw [show c = 'b' from Char.ext (UInt32.ext h)]; decide
    · rw [show c = 'c' from Char.ext (UInt32.ext h)]; decide
    · rw [show c = 'd' from Char.ext (UInt32.ext h)]; decide
    · rw [show c = 'e' from Char.ext (UInt32.ext h)]; decide

theorem insertOpt_keys_of_any (opts : List (Char × String)) (k : Char) (v : String)
    (h : opts.any (fun p => p.1 = k) = true) :
    (insertOpt opts k v).map Prod.fst = opts.map Prod.fst := by
  rw [insertOpt, if_pos h, List.map_map]
  refine List.map_congr_left ?_
  intro p _
  by_cases hp : p.1 = k
  · simp [hp]
  · simp [hp]

theorem insertOpt_keys_of_not_any (opts : List (Char × String)) (k : Char) (v : String)
    (h : ¬opts.any (fun p => p.1 = k) = true) :
    (insertOpt opts k v).map Prod.fst = opts.map Prod.fst ++ [k] := by
  rw [insertOpt, if_neg h, List.map_append]
  rfl

theorem insertOpt_optKeysOk (opts : List (Char × String)) (k : Char) (v : String)
    (h : OptKeysOk opts) (hk : k ∈ upperOptionLetters) :
    OptKeysOk (insertOpt opts k v) := by
  by_cases hany : opts.any (fun p => p.1 = k) = true
  · rw [OptKeysOk, insertOpt_keys_of_any opts k v hany]
    exact h
  · rw [OptKeysOk, insertOpt_keys_of_not_any opts k v hany]
    have hnotmem : k ∉ opts.map Prod.fst := by
      intro hmem
      obtain ⟨p, hp, hpk⟩ := List.mem_map.mp hmem
      exact hany (List.any_eq_true.mpr ⟨p, hp, by simpa using hpk⟩)
    constructor
    · rw [List.nodup_append]
      exact ⟨h.1, List.nodup_singleton k, by simpa [List.disjoint_left] using hnotmem⟩
    · intro x hx
      rcases List.mem_append.mp hx with hx' | hx'
      · exact h.2 x hx'
      · rw [List.mem_singleton.mp hx']
        exact hk

theorem collectOptionsLoop_optKeysOk (fuel : Nat) :
    ∀ (opts : List (Char × String)) (rest : List String), OptKeysOk opts →
      OptKeysOk (collectOptionsLoop fuel opts rest).1 := by
  induction fuel with
  | zero =>
    intro opts rest h
    cases rest with
    | nil => exact h
    | cons l ls => exact h
  | succ fuel ih =>
    intro opts rest h
    cases rest with
    | nil => exact h
    | cons l ls =>
      rw [collectOptionsLoop]
      cases hm : optionMatch (normalize_line l) with
      | none =>
        by_cases hq : (questionStartMatch (normalize_line l)).isSome
        · simpa [hq] using h
        · simpa [hq] using ih opts ls h
      | some p =>
        exact ih _ _ (insertOpt_optKeysOk opts p.1.toUpper _ h
          (optLetter_toUpper_mem p.1 (by
            cases hd : (normalize_line l).data.dropWhile isOptLead with
            | nil => simp [optionMatch, hd] at hm
            | cons c cs =>
              cases cs with
              | nil => simp [optionMatch, hd] at hm
              | cons d ds =>
                simp only [optionMatch, hd] at hm
                by_cases hcd : (isOptLetter c && isOptSep d) = true
                · simp only [if_pos hcd] at hm
                  have hc : isOptLetter c = true := by
                    rw [Bool.and_eq_true] at hcd
                    exact hcd.1
                  injection hm with hm'
                  rw [← hm']
                  exact hc
                · simp only [if_neg hcd] at hm
                  exact Option.noConfusion hm)))

theorem lookup_isSome_of_mem_keys (opts : List (Char × String)) (k : Char)
    (h : k ∈ opts.map Prod.fst) : (opts.lookup k).isSome = true := by
  induction opts with
  | nil => simp at h
  | cons p ps ih =>
    rw [List.lookup]
    by_cases hk : (k == p.1) = true
    · simp [hk]
    · have hne : k ≠ p.1 := by simpa using hk
      have hmem : k ∈ ps.map Prod.fst := by
        rw [List.map_cons] at h
        rcases List.mem_cons.mp h with h' | h'
        · exact absurd h' hne
        · exact h'
      simp [hk, ih hmem]

theorem filterMap_lookup_map_fst (opts : List (Char × String)) :
    ∀ ks : List Char, (∀ k ∈ ks, (opts.lookup k).isSome = true) →
      (ks.filterMap (fun k => (opts.lookup k).map (fun v => (k, v)))).map Prod.fst = ks := by
  intro ks
  induction ks with
  | nil => intro _; rfl
  | cons k ks ih =>
    intro h
    have hk := h k (by simp)
    cases hv : opts.lookup k with
    | none => rw [hv] at hk; exact absurd hk (by decide)
    | some v =>
      simp only [List.filterMap_cons, hv, Option.map_some', List.map_cons]
      rw [ih (fun x hx => h x (List.mem_cons_of_mem _ hx))]

theorem sortedOptionPairs_map_fst (opts : List (Char × String)) :
    (sortedOptionPairs opts).map Prod.fst =
      List.insertionSort (fun a b : Char => a ≤ b) (opts.map Prod.fst) := by
  rw [sortedOptionPairs]
  refine filterMap_lookup_map_fst opts _ ?_
  intro k hk
  refine lookup_isSome_of_mem_keys opts k ?_
  exact (List.perm_insertionSort (fun a b : Char => a ≤ b) (opts.map Prod.fst)).mem_iff.mp hk

theorem sortedOptionPairs_chain (opts : List (Char × String))
    (hnd : (opts.map Prod.fst).Nodup) :
    List.Chain' (fun a b : Char × String => a.1 < b.1) (sortedOptionPairs opts) := by
  have hsorted : List.Sorted (fun a b : Char => a ≤ b)
      (List.insertionSort (fun a b : Char => a ≤ b) (opts.map Prod.fst)) :=
    List.sorted_insertionSort _ _
  have hnd' : (List.insertionSort (fun a b : Char => a ≤ b) (opts.map Prod.fst)).Nodup :=
    (List.perm_insertionSort (fun a b : Char => a ≤ b) (opts.map Prod.fst)).nodup_iff.mpr hnd
  have hlt : List.Pairwise (fun a b : Char => a < b)
      (List.insertionSort (fun a b : Char => a ≤ b) (opts.map Prod.fst)) := by
    have hand := List.Pairwise.and hsorted hnd'
    refine hand.imp ?_
    rintro a b ⟨h1, h2⟩
    exact lt_of_le_of_ne h1 h2
  rw [← sortedOptionPairs_map_fst opts] at hlt
  exact List.Pairwise.chain' ((List.pairwise_map).mp hlt)

theorem optKeysOk_length_le (opts : List (Char × String)) (h : OptKeysOk opts) :
    opts.length ≤ 5 := by
  have hlen : (opts.map Prod.fst).length = opts.length := List.length_map _ _
  have hsub : opts.map Prod.fst ⊆ upperOptionLetters := h.2
  have h1 : (opts.map Prod.fst).toFinset.card = (opts.map Prod.fst).length :=
    List.toFinset_card_of_nodup h.1
  have h2 : (opts.map Prod.fst).toFinset ⊆ upperOptionLetters.toFinset := by
    intro x hx
    rw [List.mem_toFinset] at hx ⊢
    exact hsub hx
  have h3 := Finset.card_le_card h2
  have h4 : upperOptionLetters.toFinset.card ≤ upperOptionLetters.length :=
    upperOptionLetters.toFinset_card_le
  have h5 : upperOptionLetters.length = 5 := rfl
  omega

theorem sortedOptionTexts_length_le (opts : List (Char × String))
    (h : OptKeysOk opts) : (sortedOptionTexts opts).length ≤ 5 := by
  have h1 : (sortedOptionTexts opts).length = (sortedOptionPairs opts).length :=
    List.length_map _ _
  have h2 : (sortedOptionPairs opts).length ≤
      (List.insertionSort (fun a b : Char => a ≤ b) (opts.map Prod.fst)).length :=
    List.length_filterMap_le _ _
  have h3 : (List.insertionSort (fun a b : Char => a ≤ b) (opts.map Prod.fst)).length =
      (opts.map Prod.fst).length := List.length_insertionSort _ _
  have h4 : (opts.map Prod.fst).length = opts.length := List.length_map _ _
  have h5 := optKeysOk_length_le opts h
  omega

/-! The shape of every record the question extractor emits. -/

theorem optKeysOk_nil : OptKeysOk [] := by
  constructor
  · simp
  · intro k hk
    simp at hk

theorem pqLoop_mem (y : String) : ∀ (fuel : Nat) (rest : List String) (q : Question),
    q ∈ pqLoop y fuel rest →
      q.question ≠ "" ∧ normalize_line q.question = q.question ∧
      q.options.length ≤ 5 ∧
      ∃ pairs : List (Char × String), q.options = pairs.map Prod.snd ∧
        List.Chain' (fun a b : Char × String => a.1 < b.1) pairs := by
  intro fuel
  induction fuel with
  | zero =>
    intro rest q hq
    cases rest with
    | nil => simp [pqLoop] at hq
    | cons l ls => simp [pqLoop] at hq
  | succ fuel ih =>
    intro rest q hq
    cases rest with
    | nil => simp [pqLoop] at hq
    | cons l ls =>
      rw [pqLoop] at hq
      by_cases hblank : normalize_line l = ""
      · rw [if_pos hblank] at hq
        exact ih ls q hq
      · rw [if_neg hblank] at hq
        cases hqs : questionStartMatch (normalize_line l) with
        | none =>
          simp only [hqs] at hq
          exact ih ls q hq
        | some pr =>
          simp only [hqs] at hq
          by_cases hqt :
              pyStrip (normalize_line (joinSpace (qAccumList [pyStrip pr.2] ls).1)) = ""
          · rw [if_pos hqt] at hq
            exact ih _ q hq
          · rw [if_neg hqt] at hq
            rcases List.mem_cons.mp hq with rfl | hmem
            · have hOK : OptKeysOk (collectOptionsLoop fuel [] (qAccumList [pyStrip pr.2] ls).2).1 :=
                collectOptionsLoop_optKeysOk fuel [] _ optKeysOk_nil
              refine ⟨hqt, ?_, ?_, ?_⟩
              · show normalize_line (pyStrip (normalize_line _)) = pyStrip (normalize_line _)
                rw [pyStrip_normalize_line, normalize_line_idem]
              · show (if (collectOptionsLoop fuel [] (qAccumList [pyStrip pr.2] ls).2).1.isEmpty
                    then [] else sortedOptionTexts _).length ≤ 5
                split
                · simp
                · exact sortedOptionTexts_length_le _ hOK
              · show ∃ pairs,
                  (if (collectOptionsLoop fuel [] (qAccumList [pyStrip pr.2] ls).2).1.isEmpty
                    then [] else sortedOptionTexts _) = pairs.map Prod.snd ∧
                  List.Chain' (fun a b : Char × String => a.1 < b.1) pairs
                split
                · exact ⟨[], by simp⟩
                · exact ⟨sortedOptionPairs _, rfl, sortedOptionPairs_chain _ hOK.1⟩
            · exact ih _ q hmem

theorem parse_questions_from_block_mem (block_lines : List String) (y : String)
    (q : Question) (hq : q ∈ parse_questions_from_block block_lines y) :
    q.question ≠ "" ∧ normalize_line q.question = q.question ∧
    q.options.length ≤ 5 ∧
    ∃ pairs : List (Char × String), q.options = pairs.map Prod.snd ∧
      List.Chain' (fun a b : Char × String => a.1 < b.1) pairs :=
  pqLoop_mem y block_lines.length block_lines q hq

/-! The instrumented question loop projects onto the plain one, and its
records carry exactly the dict their options were sorted from. -/

theorem pqLoop_eq_withOpts (y : String) : ∀ (fuel : Nat) (rest : List String),
    pqLoop y fuel rest = (pqLoopWithOpts y fuel rest).map Prod.fst := by
  intro fuel
  induction fuel with
  | zero =>
    intro rest
    cases rest with
    | nil => rfl
    | cons l ls => rfl
  | succ fuel ih =>
    intro rest
    cases rest with
    | nil => rfl
    | cons l ls =>
      rw [pqLoop, pqLoopWithOpts]
      by_cases hblank : normalize_line l = ""
      · rw [if_pos hblank, if_pos hblank]
        exact ih ls
      · rw [if_neg hblank, if_neg hblank]
        cases hqs : questionStartMatch (normalize_line l) with
        | none =>
          simp only [hqs]
          exact ih ls
        | some pr =>
          simp only [hqs]
          by_cases hqt :
              pyStrip (normalize_line (joinSpace (qAccumList [pyStrip pr.2] ls).1)) = ""
          · rw [if_pos hqt, if_pos hqt]
            exact ih _
          · rw [if_neg hqt, if_neg hqt, List.map_cons]
            rw [ih _]

theorem pqLoopWithOpts_mem (y : String) :
    ∀ (fuel : Nat) (rest : List String) (p : Question × List (Char × String)),
      p ∈ pqLoopWithOpts y fuel rest →
        OptKeysOk p.2 ∧ p.1.options = sortedOptionTexts p.2 := by
  intro fuel
  induction fuel with
  | zero =>
    intro rest p hp
    cases rest with
    | nil => simp [pqLoopWithOpts] at hp
    | cons l ls => simp [pqLoopWithOpts] at hp
  | succ fuel ih =>
    intro rest p hp
    cases rest with
    | nil => simp [pqLoopWithOpts] at hp
    | cons l ls =>
      rw [pqLoopWithOpts] at hp
      by_cases hblank : normalize_line l = ""
      · rw [if_pos hblank] at hp
        exact ih ls p hp
      · rw [if_neg hblank] at hp
        cases hqs : questionStartMatch (normalize_line l) with
        | none =>
          simp only [hqs] at hp
          exact ih ls p hp
        | some pr =>
          simp only [hqs] at hp
          by_cases hqt :
              pyStrip (normalize_line (joinSpace (qAccumList [pyStrip pr.2] ls).1)) = ""
          · rw [if_pos hqt] at hp
            exact ih _ p hp
          · rw [if_neg hqt] at hp
            rcases List.mem_cons.mp hp with rfl | hmem
            · refine ⟨collectOptionsLoop_optKeysOk fuel [] _ optKeysOk_nil, ?_⟩
              show (if (collectOptionsLoop fuel [] (qAccumList [pyStrip pr.2] ls).2).1.isEmpty
                  then [] else sortedOptionTexts _) = sortedOptionTexts _
              split
              · rename_i hemp
                rw [List.isEmpty_iff.mp hemp]
                rfl
              · rfl
            · exact ih _ p hmem

theorem sortedOptionPairs_lookup (m : List (Char × String))
    (pr : Char × String) (hmem : pr ∈ sortedOptionPairs m) :
    m.lookup pr.1 = some pr.2 := by
  rw [sortedOptionPairs] at hmem
  obtain ⟨k, _, hk⟩ := List.mem_filterMap.mp hmem
  cases hv : m.lookup k with
  | none =>
    rw [hv] at hk
    exact Option.noConfusion hk
  | some v =>
    rw [hv, Option.map_some'] at hk
    have hpr : (k, v) = pr := Option.some.inj hk
    rw [← hpr]
    exact hv

theorem sortedOptionPairs_fst_perm (m : List (Char × String)) :
    ((sortedOptionPairs m).map Prod.fst).Perm (m.map Prod.fst) := by
  rw [sortedOptionPairs_map_fst]
  exact List.perm_insertionSort _ _

/-! Deduplication: first occurrence wins, comparison by exact question text. -/

theorem dedupeAux_mem (q : Question) : ∀ (items : List Question) (seen : List String),
    q ∈ dedupeAux seen items → q ∈ items ∧ seen.contains q.question = false := by
  intro items
  induction items with
  | nil =>
    intro seen h
    simp [dedupeAux] at h
  | cons it rest ih =>
    intro seen h
    rw [dedupeAux] at h
    by_cases hc : seen.contains it.question = true
    · rw [if_pos hc] at h
      obtain ⟨h1, h2⟩ := ih seen h
      exact ⟨List.mem_cons_of_mem _ h1, h2⟩
    · rw [if_neg hc] at h
      rcases List.mem_cons.mp h with rfl | hmem
      · exact ⟨by simp, by simpa using hc⟩
      · obtain ⟨h1, h2⟩ := ih _ hmem
        refine ⟨List.mem_cons_of_mem _ h1, ?_⟩
        simp only [List.contains_cons, Bool.or_eq_false_iff] at h2
        exact h2.2

theorem dedupeAux_nodup : ∀ (items : List Question) (seen : List String),
    ((dedupeAux seen items).map Question.question).Nodup := by
  intro items
  induction items with
  | nil =>
    intro seen
    simp [dedupeAux]
  | cons it rest ih =>
    intro seen
    rw [dedupeAux]
    by_cases hc : seen.contains it.question = true
    · rw [if_pos hc]
      exact ih seen
    · rw [if_neg hc]
      rw [List.map_cons]
      refine List.nodup_cons.mpr ⟨?_, ih _⟩
      intro hmem
      obtain ⟨q, hq, hqq⟩ := List.mem_map.mp hmem
      have h2 := (dedupeAux_mem q rest _ hq).2
      simp only [List.contains_cons, Bool.or_eq_false_iff] at h2
      have := h2.1
      simp at this
      exact this hqq

theorem dedupeAux_cover (it : Question) : ∀ (items : List Question) (seen : List String),
    it ∈ items → seen.contains it.question = false →
    ∃ q ∈ dedupeAux seen items, q.question = it.question := by
  intro items
  induction items with
  | nil =>
    intro seen h _
    simp at h
  | cons x rest ih =>
    intro seen hmem hseen
    rw [dedupeAux]
    by_cases hc : seen.contains x.question = true
    · rw [if_pos hc]
      rcases List.mem_cons.mp hmem with rfl | hmem'
      · rw [hseen] at hc
        exact absurd hc (by simp)
      · exact ih seen hmem' hseen
    · rw [if_neg hc]
      rcases List.mem_cons.mp hmem with rfl | hmem'
      · exact ⟨it, by simp, rfl⟩
      · by_cases heq : it.question = x.question
        · exact ⟨x, by simp, heq.symm⟩
        · have hseen' : (x.question :: seen).contains it.question = false := by
            simp only [List.contains_cons, Bool.or_eq_false_iff]
            refine ⟨by simpa using heq, hseen⟩
          obtain ⟨q, hq, hqq⟩ := ih _ hmem' hseen'
          exact ⟨q, List.mem_cons_of_mem _ hq, hqq⟩

theorem dedupeAux_first (q : Question) : ∀ (items : List Question) (seen : List String),
    q ∈ dedupeAux seen items →
    items.find? (fun x => x.question == q.question) = some q := by
  intro items
  induction items with
  | nil =>
    intro seen h
    simp [dedupeAux] at h
  | cons x rest ih =>
    intro seen hq
    rw [dedupeAux] at hq
    by_cases hc : seen.contains x.question = true
    · rw [if_pos hc] at hq
      have h2 := (dedupeAux_mem q rest seen hq).2
      have hne : (x.question == q.question) = false := by
        by_cases hxq : x.question = q.question
        · rw [hxq] at hc
          rw [h2] at hc
          exact absurd hc (by simp)
        · simpa using hxq
      rw [List.find?_cons_of_neg _ (by simp [hne])]
      exact ih seen hq
    · rw [if_neg hc] at hq
      rcases List.mem_cons.mp hq with rfl | hmem
      · rw [List.find?_cons_of_pos _ (by simp)]
      · have h2 := (dedupeAux_mem q rest _ hmem).2
        simp only [List.contains_cons, Bool.or_eq_false_iff] at h2
        have hne : (x.question == q.question) = false := by
          have := h2.1
          simp at this
          simpa using fun h => this (by rw [h])
        rw [List.find?_cons_of_neg _ (by simp [hne])]
        exact ih _ hmem

/-! Segmentation: a line that is neither a year header nor resolved by the
alias table is transparent, and inserting one only shifts later indices. -/

theorem segStep_transparent (l : String) (h : segTransparent l) (st : SegState) (i : Nat) :
    segStep st i l = st := by
  rw [segStep]
  by_cases hb : normalize_line l = ""
  · rw [if_pos hb]
  · rw [if_neg hb, h.1]
    cases hs : subjectLineMatch (normalize_line l) with
    | none => rfl
    | some title =>
      have h2 := h.2
      simp only [resolveSubjectKey, hs] at h2
      simp [h2]

theorem segLoop_append (a : List String) : ∀ (b : List String) (st : SegState) (i : Nat),
    segLoop st i (a ++ b) = segLoop (segLoop st i a) (i + a.length) b := by
  induction a with
  | nil =>
    intro b st i
    simp [segLoop]
  | cons x xs ih =>
    intro b st i
    rw [List.cons_append, segLoop, segLoop, ih]
    have : i + 1 + xs.length = i + (xs.length + 1) := by omega
    rw [this]
    rfl

theorem segBounded_mono (st : SegState) (n m : Nat) (h : SegBounded st n) (hnm : n ≤ m) :
    SegBounded st m := by
  refine ⟨fun v hv => le_trans (h.1 v hv) hnm, fun b hb => ?_⟩
  obtain ⟨h1, h2⟩ := h.2 b hb
  exact ⟨le_trans h1 hnm, lt_of_lt_of_le h2 hnm⟩

theorem closeBlock_bounded (st : SegState) (i : Nat) (h : SegBounded st i) :
    ∀ b ∈ closeBlock st i, b.startIdx ≤ i ∧ b.endIdx < i + 1 := by
  intro b hb
  rw [closeBlock] at hb
  cases hli : st.lastSubjectIdx with
  | none =>
    rw [hli] at hb
    obtain ⟨h1, h2⟩ := h.2 b hb
    exact ⟨h1, by omega⟩
  | some li =>
    cases hlk : st.lastSubjectKey with
    | none =>
      rw [hli, hlk] at hb
      obtain ⟨h1, h2⟩ := h.2 b hb
      exact ⟨h1, by omega⟩
    | some lk =>
      rw [hli, hlk] at hb
      rcases List.mem_append.mp hb with hb' | hb'
      · obtain ⟨h1, h2⟩ := h.2 b hb'
        exact ⟨h1, by omega⟩
      · have hb2 : b = ⟨st.currentYear.getD "", lk, li, i⟩ := List.mem_singleton.mp hb'
        subst hb2
        exact ⟨h.1 li (by rw [hli]; simp), Nat.lt_succ_self i⟩

theorem segStep_bounded (st : SegState) (i : Nat) (raw : String) (h : SegBounded st i) :
    SegBounded (segStep st i raw) (i + 1) := by
  have hmono := segBounded_mono st i (i + 1) h (by omega)
  rw [segStep]
  split
  · exact hmono
  · split
    · exact hmono
    · split
      · exact hmono
      · split
        · exact hmono
        · refine ⟨fun v hv => ?_, fun b hb' => ?_⟩
          · have : i + 1 = v := by simpa using hv
            omega
          · obtain ⟨h1, h2⟩ := closeBlock_bounded st i h b hb'
            exact ⟨by omega, h2⟩

theorem segLoop_bounded : ∀ (ls : List String) (st : SegState) (i : Nat),
    SegBounded st i → SegBounded (segLoop st i ls) (i + ls.length) := by
  intro ls
  induction ls with
  | nil =>
    intro st i h
    simpa [segLoop] using h
  | cons x xs ih =>
    intro st i h
    rw [segLoop]
    have := ih (segStep st i x) (i + 1) (segStep_bounded st i x h)
    have harith : i + 1 + xs.length = i + (xs.length + 1) := by omega
    rw [harith] at this
    simpa using this

theorem shiftState_eq_of_bounded (k : Nat) (st : SegState) (h : SegBounded st k) :
    shiftState k st = st := by
  have hli : st.lastSubjectIdx.map (shiftStart k) = st.lastSubjectIdx := by
    cases hv : st.lastSubjectIdx with
    | none => rfl
    | some v =>
      have hb := h.1 v (by rw [hv]; simp)
      simp [shiftStart, hb]
  have hbs : st.blocks.map (shiftBlock k) = st.blocks := by
    have hall : ∀ b ∈ st.blocks, shiftBlock k b = b := by
      intro b hb
      obtain ⟨h1, h2⟩ := h.2 b hb
      rw [shiftBlock, shiftStart, shiftEnd, if_pos h1, if_pos h2]
    rw [List.map_congr_left hall]
    simp
  rw [shiftState, hli, hbs]

theorem closeBlock_shift (k : Nat) (st : SegState) (n : Nat) (hkn : k ≤ n) :
    closeBlock (shiftState k st) (n + 1) = (closeBlock st n).map (shiftBlock k) := by
  rw [closeBlock, closeBlock, shiftState]
  cases st.lastSubjectIdx with
  | none => rfl
  | some li =>
    cases st.lastSubjectKey with
    | none => rfl
    | some lk =>
      simp only [Option.map_some']
      rw [List.map_append]
      congr 1
      rw [List.map_singleton, shiftBlock]
      have : shiftEnd k n = n + 1 := by
        rw [shiftEnd, if_neg (by omega)]
      rw [this]

theorem segStep_shift (k : Nat) (st : SegState) (i : Nat) (raw : String) (hki : k ≤ i) :
    segStep (shiftState k st) (i + 1) raw = shiftState k (segStep st i raw) := by
  rw [segStep, segStep]
  by_cases hb : normalize_line raw = ""
  · rw [if_pos hb, if_pos hb]
  · rw [if_neg hb, if_neg hb]
    cases hY : yearHeaderMatch (normalize_line raw) with
    | some y =>
      simp only [hY]
      rfl
    | none =>
      simp only [hY]
      cases hS : subjectLineMatch (normalize_line raw) with
      | none => simp only [hS]
      | some title =>
        simp only [hS]
        cases hA : SUBJECT_ALIASES.lookup (pyUpper title) with
        | none => simp only [hA]
        | some key =>
          simp only [hA]
          have h1 : shiftStart k (i + 1) = i + 1 + 1 := by
            rw [shiftStart, if_neg (by omega)]
          have h2 : closeBlock (shiftState k st) (i + 1) = (closeBlock st i).map (shiftBlock k) :=
            closeBlock_shift k st i hki
          simp only [shiftState] at h2 ⊢
          rw [Option.map_some', h1, ← h2]

theorem segLoop_shift (k : Nat) : ∀ (ls : List String) (st : SegState) (i : Nat), k ≤ i →
    segLoop (shiftState k st) (i + 1) ls = shiftState k (segLoop st i ls) := by
  intro ls
  induction ls with
  | nil =>
    intro st i _
    rfl
  | cons x xs ih =>
    intro st i hki
    rw [segLoop, segLoop, segStep_shift k st i x hki]
    exact ih (segStep st i x) (i + 1) (by omega)

theorem parse_subject_blocks_insert_transparent (lines : List String) (k : Nat)
    (l : String) (hk : k ≤ lines.length) (hl : segTransparent l) :
    parse_subject_blocks (lines.take k ++ l :: lines.drop k) =
      (parse_subject_blocks lines).map (shiftBlock k) := by
  have hlen_take : (lines.take k).length = k := by
    rw [List.length_take]
    omega
  have hinit : SegBounded (⟨none, none, none, []⟩ : SegState) 0 := by
    constructor
    · intro v hv
      simp at hv
    · intro b hb
      simp at hb
  have hstk : SegBounded (segLoop ⟨none, none, none, []⟩ 0 (lines.take k)) k := by
    have hsb := segLoop_bounded (lines.take k) ⟨none, none, none, []⟩ 0 hinit
    rwa [hlen_take, Nat.zero_add] at hsb
  have hsplit : lines = lines.take k ++ lines.drop k := (List.take_append_drop k lines).symm
  have hnewlen : (lines.take k ++ l :: lines.drop k).length = lines.length + 1 := by
    rw [List.length_append, hlen_take, List.length_cons, List.length_drop]
    omega
  have e1 : segLoop (segLoop ⟨none, none, none, []⟩ 0 (lines.take k)) (k + 1) (lines.drop k) =
      shiftState k (segLoop (segLoop ⟨none, none, none, []⟩ 0 (lines.take k)) k (lines.drop k)) := by
    conv_lhs => rw [← shiftState_eq_of_bounded k _ hstk]
    exact segLoop_shift k (lines.drop k) _ k (le_refl k)
  have hseg_new : segLoop ⟨none, none, none, []⟩ 0 (lines.take k ++ l :: lines.drop k) =
      shiftState k (segLoop (segLoop ⟨none, none, none, []⟩ 0 (lines.take k)) k (lines.drop k)) := by
    rw [segLoop_append, hlen_take, Nat.zero_add, segLoop, segStep_transparent l hl, e1]
  have horig : segLoop ⟨none, none, none, []⟩ 0 lines =
      segLoop (segLoop ⟨none, none, none, []⟩ 0 (lines.take k)) k (lines.drop k) := by
    conv_lhs => rw [hsplit]
    rw [segLoop_append, hlen_take, Nat.zero_add]
  rw [parse_subject_blocks, parse_subject_blocks, hnewlen, hseg_new, horig]
  exact closeBlock_shift k _ lines.length hk

/-! The options dict override and lookup. -/

theorem lookup_map_subst (k : Char) (v : String) : ∀ opts : List (Char × String),
    opts.any (fun p => p.1 = k) = true →
    (opts.map (fun p => if p.1 = k then (k, v) else p)).lookup k = some v := by
  intro opts
  induction opts with
  | nil =>
    intro h
    simp at h
  | cons p ps ih =>
    intro h
    rw [List.map_cons]
    by_cases hp : p.1 = k
    · rw [if_pos hp]
      simp [List.lookup]
    · rw [if_neg hp]
      rw [List.lookup]
      have hk : (k == p.1) = false := by
        simp
        exact fun he => hp he.symm
      rw [hk]
      refine ih ?_
      rw [List.any_cons] at h
      simpa [hp] using h

theorem lookup_append_single (k : Char) (v : String) : ∀ opts : List (Char × String),
    opts.any (fun p => p.1 = k) = false →
    (opts ++ [(k, v)]).lookup k = some v := by
  intro opts
  induction opts with
  | nil =>
    intro _
    simp [List.lookup]
  | cons p ps ih =>
    intro h
    rw [List.any_cons, Bool.or_eq_false_iff] at h
    have hp : ¬p.1 = k := by simpa using h.1
    rw [List.cons_append, List.lookup]
    have hk : (k == p.1) = false := by
      simp
      exact fun he => hp he.symm
    rw [hk]
    exact ih h.2

theorem insertOpt_lookup (opts : List (Char × String)) (k : Char) (v : String) :
    (insertOpt opts k v).lookup k = some v := by
  rw [insertOpt]
  by_cases hany : opts.any (fun p => p.1 = k) = true
  · rw [if_pos hany]
    exact lookup_map_subst k v opts hany
  · rw [if_neg hany]
    exact lookup_append_single k v opts (Bool.eq_false_iff.mpr hany)

/-! Option continuation lines: what absorbCont collects and how the option
text is coalesced. -/

theorem optionMatch_empty : optionMatch "" = none := rfl

theorem questionStartMatch_empty : questionStartMatch "" = none := rfl

theorem absorbCont_spec (conts : List String)
    (hc : ∀ c ∈ conts, (optionMatch (normalize_line c)).isSome = false ∧
        (questionStartMatch (normalize_line c)).isSome = false ∧ normalize_line c ≠ "")
    (rest : List String)
    (hr : ∀ r ∈ rest.head?, ((optionMatch (normalize_line r)).isSome ||
        (questionStartMatch (normalize_line r)).isSome) = true) :
    ∀ acc, absorbCont acc (conts ++ rest) = (acc ++ conts.map normalize_line, rest) := by
  induction conts with
  | nil =>
    intro acc
    cases rest with
    | nil => simp [absorbCont]
    | cons r rs =>
      have hstop := hr r (by simp)
      have hblank : ¬normalize_line r = "" := by
        intro hb
        rw [hb, optionMatch_empty, questionStartMatch_empty] at hstop
        simp at hstop
      rw [List.nil_append, absorbCont, if_neg hblank, if_pos hstop]
      simp
  | cons c cs ih =>
    intro acc
    have hcc := hc c (by simp)
    rw [List.cons_append, absorbCont, if_neg hcc.2.2,
      if_neg (by rw [hcc.1, hcc.2.1]; simp)]
    rw [ih (fun x hx => hc x (List.mem_cons_of_mem _ hx)) (acc ++ [normalize_line c])]
    simp

theorem coalesceOption_join (t : String) (parts : List String)
    (ht : normalize_line t = t) (htne : t ≠ "")
    (hp : ∀ p ∈ parts, normalize_line p = p ∧ p ≠ "") :
    coalesceOption t parts = joinSpace (t :: parts) := by
  cases parts with
  | nil => rfl
  | cons p ps =>
    rw [coalesceOption, if_neg (by simp)]
    have hjoin : t ++ " " ++ joinSpace (p :: ps) = joinSpace (t :: p :: ps) := rfl
    rw [hjoin]
    refine normalize_joinSpace_eq (t :: p :: ps) (by simp) ?_
    intro x hx
    rcases List.mem_cons.mp hx with rfl | hx'
    · exact ⟨ht, htne⟩
    · exact hp x hx'

/-! The per-subject banks of main. -/

theorem buildBanks_mem (lines : List String) (entry : String × List Question)
    (h : entry ∈ buildBanks lines) :
    entry.2 = dedupeByQuestion (collectForKey lines entry.1) := by
  rw [buildBanks] at h
  obtain ⟨key, hkey, heq⟩ := List.mem_map.mp h
  rw [← heq]

/-- When every per-subject write succeeds, the output loop completes and
returns its printed lines. -/
theorem writeBanks_some (outDir : String) (wr : String → String → Option Unit) :
    ∀ banks : List (String × List Question),
      (∀ bank ∈ banks,
        wr (pyJoin outDir (bank.1 ++ "-full.json")) (jsonOfBank bank.2) = some ()) →
      ∃ out, writeBanks outDir wr banks = some out := by
  intro banks
  induction banks with
  | nil =>
    intro _
    exact ⟨[], rfl⟩
  | cons bank rest ih =>
    intro h
    obtain ⟨out, hout⟩ := ih (fun b hb => h b (List.mem_cons_of_mem _ hb))
    rw [writeBanks, h bank (by simp), hout]
    exact ⟨_, rfl⟩

/-! The claims. -/

set_option maxRecDepth 10000 in
/-- C1: on the document 2022 NATIONAL QUALIFYING EXAM / BIOLOGY /
1) What is the powerhouse of the cell? / A) Nucleus / B) Mitochondria /
C) Ribosome, the pipeline produces for the subject key biology exactly one
record with that question text, options Nucleus, Mitochondria, Ribosome in
that order, year 2022 and answer unset (and the other four banks empty). -/
theorem c1_end_to_end_biology_scenario :
    buildBanks ["2022 NATIONAL QUALIFYING EXAM", "BIOLOGY",
        "1) What is the powerhouse of the cell?",
        "A) Nucleus", "B) Mitochondria", "C) Ribosome"] =
      [("biology", [{ question := "What is the powerhouse of the cell?",
                      options := ["Nucleus", "Mitochondria", "Ribosome"],
                      answer := none, year := some "2022" }]),
       ("chemistry", []), ("physics", []), ("general-knowledge", []), ("french", [])] := by
  decide

/-- C2 (counterexample): the line 1234 Some question begins with four
consecutive digits and is nevertheless classified as a question start (the
regex takes 123 as the number and 4 Some question as the text), so the claim
that such a line is not a question start is false. -/
theorem c2_counterexample_four_digit_line :
    questionStartMatch "1234 Some question" = some ("123", "4 Some question") ∧
    ("1234 Some question".data.takeWhile pyIsDigit).length = 4 := by
  decide

/-- C2 (amended): a line is classified as a question start if and only if its
first character is a digit; the match takes at most the first three digits as
the question number and everything after them (further digits included) as
text, so a line beginning with four or more digits is still a question
start. -/
theorem c2_question_start_iff_leading_digit (s : String) :
    (questionStartMatch s).isSome = true ↔
      ∃ c cs, s.data = c :: cs ∧ pyIsDigit c = true := by
  constructor
  · intro h
    cases hd : s.data with
    | nil =>
      rw [questionStartMatch, hd] at h
      simp at h
    | cons c cs =>
      refine ⟨c, cs, rfl, ?_⟩
      by_contra hc
      rw [questionStartMatch, hd] at h
      simp [List.takeWhile_cons, hc] at h
  · rintro ⟨c, cs, hcs, hc⟩
    rw [questionStartMatch, hcs]
    simp [List.takeWhile_cons, hc]

/-- C3: every record the question extractor emits has non-empty question
text, and that text is already whitespace-normalized (so it is non-empty
after normalization); a question whose accumulated text normalizes to the
empty string is dropped, hence never appears among the emitted records. -/
theorem c3_emitted_question_nonempty (block_lines : List String) (year : String) :
    ∀ q ∈ parse_questions_from_block block_lines year,
      normalize_line q.question = q.question ∧ q.question ≠ "" := by
  intro q hq
  obtain ⟨h1, h2, _, _⟩ := parse_questions_from_block_mem block_lines year q hq
  exact ⟨h2, h1⟩

set_option maxRecDepth 10000 in
/-- C3 (witness): the record extracted from a one-question block has
normalized, non-empty question text. -/
theorem c3_witness :
    normalize_line "What is the powerhouse of the cell?" =
        "What is the powerhouse of the cell?" ∧
      "What is the powerhouse of the cell?" ≠ "" :=
  c3_emitted_question_nonempty
    ["1) What is the powerhouse of the cell?", "A) Nucleus"] "2022"
    ⟨"What is the powerhouse of the cell?", ["Nucleus"], none, some "2022"⟩ (by decide)

/-- C4: the option texts of every emitted record appear in strictly
ascending order of their option letter, regardless of the order the lettered
lines had in the source section.  Part one: dropping the instrumentation of
questionsWithOptions (which pairs each record with the letter-keyed options
dict collected for it from the section's option lines) gives exactly
parse_questions_from_block.  Part two: for each instrumented record, its
options list is the text projection of sortedOptionPairs of its own dict,
whose letters strictly ascend, each of whose pairs is a binding of that
dict, and whose letters are a permutation of all the dict's letters. -/
theorem c4_options_sorted_by_letter :
    (∀ (block_lines : List String) (year : String),
      parse_questions_from_block block_lines year =
        (questionsWithOptions block_lines year).map Prod.fst) ∧
    (∀ (block_lines : List String) (year : String),
      ∀ p ∈ questionsWithOptions block_lines year,
        p.1.options = (sortedOptionPairs p.2).map Prod.snd ∧
        List.Chain' (fun a b : Char × String => a.1 < b.1) (sortedOptionPairs p.2) ∧
        (∀ pr ∈ sortedOptionPairs p.2, p.2.lookup pr.1 = some pr.2) ∧
        ((sortedOptionPairs p.2).map Prod.fst).Perm (p.2.map Prod.fst)) := by
  constructor
  · intro block_lines year
    exact pqLoop_eq_withOpts year block_lines.length block_lines
  · intro block_lines year p hp
    obtain ⟨hok, hopts⟩ := pqLoopWithOpts_mem year block_lines.length block_lines p hp
    exact ⟨hopts, sortedOptionPairs_chain p.2 hok.1,
      fun pr hpr => sortedOptionPairs_lookup p.2 pr hpr,
      sortedOptionPairs_fst_perm p.2⟩

set_option maxRecDepth 10000 in
/-- C4 (witness): a section whose lettered lines appear as B then A collects
the dict in document order B, A, yet the emitted record lists the texts in
A-then-B order (the sorted pair list of that dict), and the uninstrumented
extractor agrees with the instrumented one on this block. -/
theorem c4_witness :
    questionsWithOptions ["1) Which came first?", "B) second", "A) first"] "2022" =
      [(⟨"Which came first?", ["first", "second"], none, some "2022"⟩,
        [('B', "second"), ('A', "first")])] ∧
    sortedOptionPairs [('B', "second"), ('A', "first")] =
      [('A', "first"), ('B', "second")] ∧
    parse_questions_from_block ["1) Which came first?", "B) second", "A) first"] "2022" =
      (questionsWithOptions ["1) Which came first?", "B) second", "A) first"] "2022").map
        Prod.fst :=
  ⟨by decide, by decide,
    c4_options_sorted_by_letter.1 ["1) Which came first?", "B) second", "A) first"] "2022"⟩

/-- C5: each subject bank is the deduplication of the questions collected for
that subject across all sections: question texts in the output are pairwise
distinct, every collected question text survives through some record, and
each surviving record is exactly the first collected record bearing its
question text (comparison is by exact question text only, so records from
different years with equal text deduplicate). -/
theorem c5_dedup_first_wins (lines : List String) (entry : String × List Question)
    (h : entry ∈ buildBanks lines) :
    entry.2 = dedupeByQuestion (collectForKey lines entry.1) ∧
    (entry.2.map Question.question).Nodup ∧
    (∀ it ∈ collectForKey lines entry.1, ∃ q ∈ entry.2, q.question = it.question) ∧
    (∀ q ∈ entry.2,
      (collectForKey lines entry.1).find? (fun x => x.question == q.question) = some q) := by
  have he := buildBanks_mem lines entry h
  refine ⟨he, ?_, ?_, ?_⟩
  · rw [he, dedupeByQuestion]
    exact dedupeAux_nodup _ []
  · intro it hit
    rw [he, dedupeByQuestion]
    exact dedupeAux_cover it _ [] hit rfl
  · intro q hq
    rw [he, dedupeByQuestion] at hq
    exact dedupeAux_first q _ [] hq

set_option maxRecDepth 10000 in
/-- C5 (witness): two sections of different years contribute the same
question text Q?; the bank keeps only the first record (year 2020, option x)
and drops the later year-2021 duplicate. -/
theorem c5_witness :
    ([⟨"Q?", ["x"], none, some "2020"⟩,
      ⟨"1 NATIONAL QUALIFYING EXAM", [], none, some "2021"⟩] : List Question) =
      dedupeByQuestion (collectForKey
        ["2020 NATIONAL QUALIFYING EXAM", "BIOLOGY", "1) Q?", "A) x",
          "BIOLOGY", "2021 NATIONAL QUALIFYING EXAM", "1) Q?", "A) y"] "biology") :=
  (c5_dedup_first_wins
    ["2020 NATIONAL QUALIFYING EXAM", "BIOLOGY", "1) Q?", "A) x",
      "BIOLOGY", "2021 NATIONAL QUALIFYING EXAM", "1) Q?", "A) y"]
    ("biology", [⟨"Q?", ["x"], none, some "2020"⟩,
      ⟨"1 NATIONAL QUALIFYING EXAM", [], none, some "2021"⟩]) (by decide)).1

set_option maxRecDepth 10000 in
/-- C6 (counterexample): the line 2023 NATIONAL QUALIFYING EXAM is not
resolved to a subject key by the alias table, yet inserting it into a
document changes the produced sections beyond an index shift: the pending
section's year changes from the empty default to 2023. -/
theorem c6_counterexample_year_header_line :
    resolveSubjectKey (normalize_line "2023 NATIONAL QUALIFYING EXAM") = none ∧
    parse_subject_blocks ["BIOLOGY", "2023 NATIONAL QUALIFYING EXAM", "1) Q?"] =
      [{ year := "2023", subjectKey := "biology", startIdx := 1, endIdx := 3 }] ∧
    parse_subject_blocks ["BIOLOGY", "1) Q?"] =
      [{ year := "", subjectKey := "biology", startIdx := 1, endIdx := 2 }] := by
  decide

/-- C6 (amended): a line that is neither a year header nor resolved to a
canonical subject key by the alias table (for example MATHEMATICS) opens no
section and closes none: the sections of a document with such a line
inserted at position k are those of the document without it, with start
indices above k and end indices at or above k shifted up by one. -/
theorem c6_unrecognized_header_transparent (lines : List String) (k : Nat) (l : String)
    (hk : k ≤ lines.length)
    (hyear : yearHeaderMatch (normalize_line l) = none)
    (hres : resolveSubjectKey (normalize_line l) = none) :
    parse_subject_blocks (lines.take k ++ l :: lines.drop k) =
      (parse_subject_blocks lines).map (shiftBlock k) :=
  parse_subject_blocks_insert_transparent lines k l hk ⟨hyear, hres⟩

set_option maxRecDepth 10000 in
/-- C6 (witness): inserting MATHEMATICS after the BIOLOGY header leaves the
single section in place, with its indices shifted past the insertion. -/
theorem c6_witness :
    parse_subject_blocks ["BIOLOGY", "MATHEMATICS", "1) Q?"] =
      (parse_subject_blocks ["BIOLOGY", "1) Q?"]).map (shiftBlock 1) :=
  c6_unrecognized_header_transparent ["BIOLOGY", "1) Q?"] 1 "MATHEMATICS"
    (by decide) (by decide) (by decide)

/-- C7: when a recognized option line with (normalized, non-empty) text t is
followed by continuation lines that are non-blank and neither option starts
nor question starts, and the absorption stops at the section end or at the
next option or question line, the extractor collects exactly those
continuation lines (normalized) and the resulting option text is t joined
with them into a single string with exactly one space between consecutive
fragments. -/
theorem c7_option_continuation_joined (t : String) (conts rest : List String)
    (ht : normalize_line t = t) (htne : t ≠ "")
    (hc : ∀ c ∈ conts, (optionMatch (normalize_line c)).isSome = false ∧
        (questionStartMatch (normalize_line c)).isSome = false ∧ normalize_line c ≠ "")
    (hr : ∀ r ∈ rest.head?, ((optionMatch (normalize_line r)).isSome ||
        (questionStartMatch (normalize_line r)).isSome) = true) :
    absorbCont [] (conts ++ rest) = (conts.map normalize_line, rest) ∧
    coalesceOption t (conts.map normalize_line) =
      joinSpace (t :: conts.map normalize_line) := by
  constructor
  · simpa using absorbCont_spec conts hc rest hr []
  · refine coalesceOption_join t (conts.map normalize_line) ht htne ?_
    intro p hp
    obtain ⟨c, hcmem, rfl⟩ := List.mem_map.mp hp
    exact ⟨normalize_line_idem c, (hc c hcmem).2.2⟩

/-- C7 (witness): an option text Nucleus plus with one wrapped continuation
line before the next lettered option is joined with a single space. -/
theorem c7_witness :
    absorbCont [] (["wrapped tail"] ++ ["B) Next"]) =
      (["wrapped tail"].map normalize_line, ["B) Next"]) ∧
    coalesceOption "Nucleus plus" (["wrapped tail"].map normalize_line) =
      joinSpace ("Nucleus plus" :: ["wrapped tail"].map normalize_line) :=
  c7_option_continuation_joined "Nucleus plus" ["wrapped tail"] ["B) Next"]
    (by decide) (by decide) (by decide) (by decide)

/-- C8: the run is deterministic: the serialized per-subject outputs (file
name and exact JSON file contents) are a pure function of the input line
sequence, so equal inputs give byte-identical outputs across runs. -/
theorem c8_run_deterministic (lines1 lines2 : List String) (h : lines1 = lines2) :
    runOutputs lines1 = runOutputs lines2 := by
  rw [h]

/-- C8 (witness): two runs on the scenario document produce identical
serialized outputs. -/
theorem c8_witness :
    runOutputs ["2022 NATIONAL QUALIFYING EXAM", "BIOLOGY",
        "1) What is the powerhouse of the cell?",
        "A) Nucleus", "B) Mitochondria", "C) Ribosome"] =
      runOutputs ["2022 NATIONAL QUALIFYING EXAM", "BIOLOGY",
        "1) What is the powerhouse of the cell?",
        "A) Nucleus", "B) Mitochondria", "C) Ribosome"] :=
  c8_run_deterministic _ _ rfl

/-- C9 (counterexample): with both positional arguments present but an
unreadable input file, the run terminates by an uncaught exception with exit
code 1, not 0, so the claim that all non-usage paths exit 0 is false
(whatever the later directory-creation and file-write effects would do). -/
theorem c9_counterexample_unreadable_input :
    cliRun ["build_banks.py", "missing.txt", "out"] (fun _ => none)
        (fun _ => some ()) (fun _ _ => some ()) = CliOutcome.crashed ∧
    cliExitCode (cliRun ["build_banks.py", "missing.txt", "out"] (fun _ => none)
        (fun _ => some ()) (fun _ _ => some ())) = 1 := by
  constructor
  · rfl
  · rfl

/-- C9 (amended): with fewer than two positional arguments the command
prints the usage line to standard output and exits 1; with both arguments,
a readable input, a successful output-directory creation and a successful
write of every subject's output file it exits 0; and an unreadable input, a
failing directory creation or a failing output write each terminate the run
by an uncaught exception (exit code 1). -/
theorem c9_exit_codes (argv : List String) (fs : String → Option (List String))
    (mk : String → Option Unit) (wr : String → String → Option Unit) :
    (argv.length < 3 → cliRun argv fs mk wr = CliOutcome.exited 1 [usageMessage]) ∧
    (∀ a inPath outDir rest lines, argv = a :: inPath :: outDir :: rest →
      fs inPath = some lines → mk outDir = some () →
      (∀ bank ∈ buildBanks lines,
        wr (pyJoin outDir (bank.1 ++ "-full.json")) (jsonOfBank bank.2) = some ()) →
      cliExitCode (cliRun argv fs mk wr) = 0) ∧
    (∀ a inPath outDir rest, argv = a :: inPath :: outDir :: rest →
      fs inPath = none → cliRun argv fs mk wr = CliOutcome.crashed) ∧
    (∀ a inPath outDir rest lines, argv = a :: inPath :: outDir :: rest →
      fs inPath = some lines → mk outDir = none →
      cliRun argv fs mk wr = CliOutcome.crashed) ∧
    (∀ a inPath outDir rest lines, argv = a :: inPath :: outDir :: rest →
      fs inPath = some lines → mk outDir = some () →
      writeBanks outDir wr (buildBanks lines) = none →
      cliRun argv fs mk wr = CliOutcome.crashed) := by
  refine ⟨?_, ?_, ?_, ?_, ?_⟩
  · intro h
    match argv, h with
    | [], _ => rfl
    | [a], _ => rfl
    | [a, b], _ => rfl
    | a :: b :: c :: rest, h => simp at h; omega
  · rintro a inPath outDir rest lines rfl hfs hmk hwr
    obtain ⟨out, hout⟩ := writeBanks_some outDir wr (buildBanks lines) hwr
    simp only [cliRun, hfs, hmk, hout]
    rfl
  · rintro a inPath outDir rest rfl hfs
    simp only [cliRun, hfs]
  · rintro a inPath outDir rest lines rfl hfs hmk
    simp only [cliRun, hfs, hmk]
  · rintro a inPath outDir rest lines rfl hfs hmk hwb
    simp only [cliRun, hfs, hmk, hwb]

/-- C10: every emitted record has at most five options (one per distinct
letter A-E), and a later option line with the same letter overrides the
earlier one in the options dict, so only the last occurrence's text is
kept. -/
theorem c10_options_capped_and_last_letter_wins :
    (∀ (block_lines : List String) (year : String),
      ∀ q ∈ parse_questions_from_block block_lines year, q.options.length ≤ 5) ∧
    (∀ (opts : List (Char × String)) (k : Char) (t1 t2 : String),
      (insertOpt (insertOpt opts k t1) k t2).lookup k = some t2) := by
  constructor
  · intro bl y q hq
    exact (parse_questions_from_block_mem bl y q hq).2.2.1
  · intro opts k t1 t2
    exact insertOpt_lookup (insertOpt opts k t1) k t2

end BuildBanks
